import Mathlib

/-!
# CVC facade: spec-level model and verification

The repository `MyNextID/cvc-swift` ships only umbrella headers
(`src/include/cvc.h`, `src/cvc.xcframework/.../Headers/{cvc.h,crypto.h}`)
that re-export an elliptic-curve / EdDSA toolkit and a JWT encode/decode
library; no algorithmic body is present under `src/`.  The specification
describes, at design level, the contract such a core must satisfy.  This
development models that core from the specification (each such definition
carries a doc comment starting `Modelled from the spec:`) and proves the
spec's testable properties against the model.

Throughout, byte strings are `List Nat` with every element `< 256`.
-/

namespace CVC

/-! ## Byte-level helpers -/

/-- Predicate: a list of naturals is a byte string (every element `< 256`). -/
def ByteOk (bs : List Nat) : Prop := ∀ b ∈ bs, b < 256

instance : DecidablePred ByteOk := fun bs =>
  inferInstanceAs (Decidable (∀ b ∈ bs, b < 256))

/-- Little-endian fixed-width byte encoding of a natural number. -/
def natToBytes : Nat → Nat → List Nat
  | 0, _ => []
  | w + 1, n => n % 256 :: natToBytes w (n / 256)

/-- Little-endian byte decoding. -/
def bytesToNat : List Nat → Nat
  | [] => 0
  | b :: bs => b % 256 + 256 * bytesToNat bs

theorem natToBytes_length (w n : Nat) : (natToBytes w n).length = w := by
  induction w generalizing n with
  | zero => rfl
  | succ w ih => simp [natToBytes, ih]

theorem natToBytes_byteOk (w n : Nat) : ByteOk (natToBytes w n) := by
  induction w generalizing n with
  | zero => intro b hb; simp [natToBytes] at hb
  | succ w ih =>
    intro b hb
    simp only [natToBytes, List.mem_cons] at hb
    rcases hb with rfl | hb
    · exact Nat.mod_lt _ (by norm_num)
    · exact ih (n / 256) b hb

theorem bytesToNat_natToBytes (w n : Nat) (h : n < 256 ^ w) :
    bytesToNat (natToBytes w n) = n := by
  induction w generalizing n with
  | zero => simp [pow_zero, Nat.lt_one_iff] at h; simp [h, natToBytes, bytesToNat]
  | succ w ih =>
    have hdiv : n / 256 < 256 ^ w := by
      rw [Nat.div_lt_iff_lt_mul (by norm_num)]
      calc n < 256 ^ (w + 1) := h
        _ = 256 ^ w * 256 := by ring
    simp only [natToBytes, bytesToNat, ih (n / 256) hdiv]
    omega

/-! ## A concrete cryptographic hash stand-in

Modelled from the spec: the spec requires "a cryptographic hash" for the
EdDSA challenge and deterministic nonce derivation (§4.4) but fixes no
concrete function ("no implementation detail ... is recoverable from the
given source").  We use an executable accumulator hash over bytes; all
theorems below depend only on it being a function of its input. -/
def hashBytes (bs : List Nat) : Nat :=
  bs.foldl (fun h b => (h * 131 + b % 256 + 1) % 104729) 5381

/-! ## EdDSA-style deterministic signatures over a cyclic group

Modelled from the spec: §4.4 describes `sign(private_scalar, message)` with
deterministic nonce derivation by hashing private key material and the
message, producing an `(R, S)` pair, and `verify(public_point, message,
signature)` recomputing the challenge hash and checking the group equation,
returning `VerificationFailed` on a failed check and `MalformedSignature`
on wrong-length input.  The curve group (a cyclic group of order `q`
generated by a base point) is modelled as the additive group of residues
modulo `q`, with the base point the residue `1`; `R` and `S` are serialized
as 32-byte little-endian strings per §6 ("32 bytes for the Edwards curve").
The group order `q` is a parameter (`0 < q ≤ 2^256`). -/

/-- Scalar multiplication in the model group: `s · P` modulo the order. -/
def scalar_mul (q s P : Nat) : Nat := (s * P) % q

/-- The model base point. -/
def basePoint (q : Nat) : Nat := 1 % q

/-- Public key derivation: `A = a · B`. -/
def pubkey (q a : Nat) : Nat := scalar_mul q a (basePoint q)

/-- Deterministic nonce: hash of private key material and message (§4.4). -/
def signNonce (q a : Nat) (msg : List Nat) : Nat :=
  hashBytes (natToBytes 32 a ++ msg) % q

/-- Challenge scalar: hash of `R` encoding, public key encoding, message. -/
def challenge (q : Nat) (rBytes aBytes msg : List Nat) : Nat :=
  hashBytes (rBytes ++ aBytes ++ msg) % q

/-- The commitment point `R = r · B` of a signature. -/
def signR (q a : Nat) (msg : List Nat) : Nat :=
  scalar_mul q (signNonce q a msg) (basePoint q)

/-- The response scalar `S = r + c · a mod q` of a signature. -/
def signS (q a : Nat) (msg : List Nat) : Nat :=
  (signNonce q a msg +
    challenge q (natToBytes 32 (signR q a msg)) (natToBytes 32 (pubkey q a)) msg * a) % q

/-- `sign(private_scalar, message)`: deterministic `(R, S)` pair, 64 bytes. -/
def sign (q a : Nat) (msg : List Nat) : List Nat :=
  natToBytes 32 (signR q a msg) ++ natToBytes 32 (signS q a msg)

/-- Outcome type for `verify`: a failed cryptographic check is reported as
`VerificationFailed`, distinct from `MalformedSignature` (wrong-length
input); both are values, never exceptions (§4.4, §7). -/
inductive VerifyResult where
  | Success : VerifyResult
  | VerificationFailed : VerifyResult
  | MalformedSignature : VerifyResult
deriving DecidableEq, Repr

/-- The group equation `S · B = R + c · A` checked by `verify`, with `R` and
`S` decoded from the two 32-byte halves of the signature. -/
def verifyCheck (q A : Nat) (msg rB sB : List Nat) : Bool :=
  scalar_mul q (bytesToNat sB % q) (basePoint q) ==
    (bytesToNat rB % q + scalar_mul q (challenge q rB (natToBytes 32 A) msg) A) % q

/-- `verify(public_point, message, signature)`: total function; checks the
signature length, decodes `(R, S)`, recomputes the challenge and checks the
group equation `S · B = R + c · A`. -/
def verify (q A : Nat) (msg sig : List Nat) : VerifyResult :=
  if sig.length = 64 then
    if verifyCheck q A msg (sig.take 32) (sig.drop 32) then .Success
    else .VerificationFailed
  else .MalformedSignature

theorem scalar_mul_base (q s : Nat) : scalar_mul q s (basePoint q) = s % q := by
  have h : s * (1 % q) ≡ s * 1 [MOD q] := (Nat.mod_modEq 1 q).mul_left s
  rw [mul_one] at h
  exact h

theorem pubkey_eq_mod (q a : Nat) : pubkey q a = a % q := by
  simp [pubkey, scalar_mul_base]

theorem sign_length (q a : Nat) (msg : List Nat) : (sign q a msg).length = 64 := by
  simp [sign, natToBytes_length]

theorem pow256_32 : (256 : Nat) ^ 32 = 2 ^ 256 := by norm_num

/-- Values below the order decode back from their 32-byte encoding. -/
theorem decode32_lt (q x : Nat) (hx : x < q) (hq2 : q ≤ 2 ^ 256) :
    bytesToNat (natToBytes 32 x) = x := by
  refine bytesToNat_natToBytes 32 x ?_
  calc x < q := hx
    _ ≤ 2 ^ 256 := hq2
    _ = 256 ^ 32 := pow256_32.symm

theorem signR_lt (q a : Nat) (msg : List Nat) (hq : 0 < q) : signR q a msg < q := by
  unfold signR scalar_mul
  exact Nat.mod_lt _ hq

theorem signS_lt (q a : Nat) (msg : List Nat) (hq : 0 < q) : signS q a msg < q := by
  unfold signS
  exact Nat.mod_lt _ hq

end CVC

namespace CVC

/-! ## Field-element inversion

Modelled from the spec: §4.1 requires `invert(a)` over a fixed modulus to
fail "only when the input is the additive identity under a non-invertible
modulus context (never for prime fields with nonzero input)" and to return
"a well-defined identity-adjacent sentinel otherwise".  The model checks
invertibility via the gcd, inverts by Fermat/Euler exponentiation, and
returns the sentinel `0` for the additive identity. -/

/-- Outcome of `invert`: an inverse (or the sentinel), or a non-invertibility
failure. -/
inductive InvertResult where
  | ok : Nat → InvertResult
  | nonInvertible : InvertResult
deriving DecidableEq, Repr

/-- `invert(a)` over modulus `p`: Fermat-exponentiation inverse for units,
sentinel `0` for the additive identity, failure otherwise. -/
def invert (p a : Nat) : InvertResult :=
  if Nat.gcd (a % p) p = 1 then .ok ((a % p) ^ (p - 2) % p)
  else if a % p = 0 then .ok 0
  else .nonInvertible

end CVC

namespace CVC

/-! ## MIRACL self-test wrapper

Modelled from the spec: `cvc_test_miracl_big_add` is declared in
`src/cvc.xcframework/ios-arm64/Headers/crypto.h` with the contract
"return 1 if success or 0 if failed"; its body is not under `src/`.  The
wrapped big-number addition self-test outcome is abstracted as a boolean
parameter. -/
def cvc_test_miracl_big_add (selftestPasses : Bool) : Int :=
  if selftestPasses then 1 else 0

end CVC

namespace CVC

/-- Core sign/verify round trip, shared by the signature-level and
token-level developments. -/
theorem verify_sign_ok (q a : Nat) (msg : List Nat)
    (hq : 0 < q) (hq2 : q ≤ 2 ^ 256) :
    verify q (pubkey q a) msg (sign q a msg) = .Success := by
  have hlen : (natToBytes 32 (signR q a msg)).length = 32 := natToBytes_length _ _
  have htake : (sign q a msg).take 32 = natToBytes 32 (signR q a msg) := by
    unfold sign
    exact List.take_left' hlen
  have hdrop : (sign q a msg).drop 32 = natToBytes 32 (signS q a msg) := by
    unfold sign
    exact List.drop_left' hlen
  have hcheck : verifyCheck q (pubkey q a) msg
      (natToBytes 32 (signR q a msg)) (natToBytes 32 (signS q a msg)) = true := by
    unfold verifyCheck
    simp only [beq_iff_eq]
    have hnonce : signNonce q a msg < q := by
      unfold signNonce
      exact Nat.mod_lt _ hq
    have hsr : signR q a msg = signNonce q a msg := by
      unfold signR
      rw [scalar_mul_base]
      exact Nat.mod_eq_of_lt hnonce
    rw [decode32_lt q _ (signS_lt q a msg hq) hq2,
      decode32_lt q _ (signR_lt q a msg hq) hq2,
      Nat.mod_eq_of_lt (signS_lt q a msg hq),
      Nat.mod_eq_of_lt (signR_lt q a msg hq),
      scalar_mul_base, Nat.mod_eq_of_lt (signS_lt q a msg hq)]
    unfold signS
    rw [hsr]
    apply Nat.ModEq.add_left
    unfold scalar_mul
    rw [pubkey_eq_mod]
    exact ((Nat.mod_modEq a q).mul_left _).symm.trans (Nat.mod_modEq _ q).symm
  unfold verify
  rw [if_pos (sign_length q a msg), htake, hdrop, hcheck]
  rfl

/-- C5: For every public point, message, and candidate signature byte
string, `verify` is a total function (never throws): it returns
`MalformedSignature` exactly on wrong-length input, and otherwise either
`Success` or the distinct `VerificationFailed` outcome. -/
theorem C5_verify_total_outcomes (q A : Nat) (msg sig : List Nat) :
    (sig.length ≠ 64 → verify q A msg sig = .MalformedSignature) ∧
    (sig.length = 64 →
      verify q A msg sig = .Success ∨ verify q A msg sig = .VerificationFailed) := by
  constructor
  · intro h
    unfold verify
    rw [if_neg h]
  · intro h
    unfold verify
    rw [if_pos h]
    cases hvc : verifyCheck q A msg (sig.take 32) (sig.drop 32)
    · exact Or.inr rfl
    · exact Or.inl rfl

/-- C1: For every valid key pair (private scalar with its derived public
point) and every message, verifying with the public key a signature
produced by `sign` over the private key and that message succeeds:
`verify(public, message, sign(private, message))` returns the success
outcome.  (Group order `0 < q ≤ 2^256`, matching the fixed 32-byte scalar
serialization.) -/
theorem C1_verify_sign_roundtrip (q a : Nat) (msg : List Nat)
    (hq : 0 < q) (hq2 : q ≤ 2 ^ 256) :
    verify q (pubkey q a) msg (sign q a msg) = .Success :=
  verify_sign_ok q a msg hq hq2

/-- C1 witness: a concrete key pair / message instance of the sign/verify
round trip (group order 7919, private scalar 4242, message "hello"). -/
theorem C1_verify_sign_roundtrip_witness :
    0 < 7919 ∧ (7919 : Nat) ≤ 2 ^ 256 ∧
      verify 7919 (pubkey 7919 4242) [104, 101, 108, 108, 111]
        (sign 7919 4242 [104, 101, 108, 108, 111]) = .Success :=
  ⟨by norm_num, by norm_num,
    C1_verify_sign_roundtrip 7919 4242 [104, 101, 108, 108, 111]
      (by norm_num) (by norm_num)⟩

/-- C5 witness: a wrong-length signature is reported `MalformedSignature`,
and a 64-byte signature is decided as success or `VerificationFailed`. -/
theorem C5_verify_total_outcomes_witness :
    verify 5 3 [1, 2] [7] = .MalformedSignature ∧
      (verify 5 3 [1, 2] (List.replicate 64 0) = .Success ∨
        verify 5 3 [1, 2] (List.replicate 64 0) = .VerificationFailed) :=
  ⟨(C5_verify_total_outcomes 5 3 [1, 2] [7]).1 (by decide),
    (C5_verify_total_outcomes 5 3 [1, 2] (List.replicate 64 0)).2 (by decide)⟩

set_option maxRecDepth 10000 in
/-- C6: `sign` is deterministic — it is a function of the private scalar and
the message alone, with the nonce derived by hashing private key material
and the message (`signNonce`) and no randomness consumed.  In particular,
signing the message "hello" (bytes `[104,101,108,108,111]`) with the fixed
key pair (order 7919, private scalar 123) always yields the one specific
64-byte signature below, and that exact byte string verifies against the
corresponding public key. -/
theorem C6_deterministic_hello_signature :
    sign 7919 123 [104, 101, 108, 108, 111] =
      [138, 8] ++ List.replicate 30 0 ++ [163] ++ List.replicate 31 0 ∧
    verify 7919 (pubkey 7919 123) [104, 101, 108, 108, 111]
      ([138, 8] ++ List.replicate 30 0 ++ [163] ++ List.replicate 31 0) =
      .Success := by
  constructor
  · decide
  · decide

/-- C7: over a prime modulus, `invert` never takes its failure branch: for
nonzero residues it returns a working multiplicative inverse, and for the
additive identity it returns the sentinel `0` rather than an error. -/
theorem C7_invert_prime_field (p a : Nat) (hp : p.Prime) :
    (a % p ≠ 0 → ∃ b, invert p a = .ok b ∧ b * a % p = 1) ∧
    (a % p = 0 → invert p a = .ok 0) := by
  constructor
  · intro h
    have hlt : a % p < p := Nat.mod_lt _ hp.pos
    have hdvd : ¬ p ∣ a % p := fun hd => h (Nat.eq_zero_of_dvd_of_lt hd hlt)
    have hcop : Nat.Coprime (a % p) p := (hp.coprime_iff_not_dvd.mpr hdvd).symm
    have hinv : invert p a = .ok ((a % p) ^ (p - 2) % p) := by
      unfold invert
      rw [if_pos hcop]
    refine ⟨_, hinv, ?_⟩
    have h1 : (a % p) ^ (p - 2) % p * a ≡ (a % p) ^ (p - 2) * (a % p) [MOD p] :=
      (Nat.mod_modEq _ p).mul (Nat.mod_modEq a p).symm
    have h2le := hp.two_le
    have h2 : (a % p) ^ (p - 2) * (a % p) = (a % p) ^ (p - 1) := by
      rw [← pow_succ]
      congr 1
      omega
    rw [h2] at h1
    have h3 : (a % p) ^ (p - 1) ≡ 1 [MOD p] := by
      have ht := Nat.ModEq.pow_totient hcop
      rwa [Nat.totient_prime hp] at ht
    have h5 := h1.trans h3
    have h6 : 1 % p = 1 := Nat.mod_eq_of_lt hp.one_lt
    rw [← h6]
    exact h5
  · intro h
    unfold invert
    rw [h]
    simp [Nat.gcd_zero_left, hp.ne_one]

/-- C7 witness: concrete instances over the prime field modulo 7. -/
theorem C7_invert_prime_field_witness :
    (∃ b, invert 7 3 = .ok b ∧ b * 3 % 7 = 1) ∧ invert 7 0 = .ok 0 :=
  ⟨(C7_invert_prime_field 7 3 (by norm_num)).1 (by decide),
    (C7_invert_prime_field 7 0 (by norm_num)).2 (by decide)⟩

/-- C10: `cvc_test_miracl_big_add` returns only one of two values at its
public interface: `1` when the wrapped big-number addition self-test
succeeds and `0` when it fails. -/
theorem C10_miracl_selftest_binary (b : Bool) :
    (cvc_test_miracl_big_add b = 1 ∨ cvc_test_miracl_big_add b = 0) ∧
    cvc_test_miracl_big_add true = 1 ∧ cvc_test_miracl_big_add false = 0 := by
  cases b <;> simp [cvc_test_miracl_big_add]

end CVC

namespace CVC

/-! ## Base64url

Modelled from the spec: §6 fixes the compact token format
`base64url(header_json) + "." + base64url(payload_json) + "." +
base64url(signature_bytes)`.  Standard padless base64url over byte strings:
the alphabet `A-Z a-z 0-9 - _` (no `.`), three bytes per four characters
with two- and three-character tails for one and two trailing bytes. -/

/-- The base64url alphabet, as ASCII codes, indexed by sextet value. -/
def b64EncChar (s : Nat) : Nat :=
  if s < 26 then 65 + s
  else if s < 52 then 71 + s
  else if s < 62 then s - 4
  else if s = 62 then 45
  else 95

/-- Inverse alphabet lookup; `none` off the alphabet. -/
def b64DecChar (c : Nat) : Option Nat :=
  if 65 ≤ c ∧ c ≤ 90 then some (c - 65)
  else if 97 ≤ c ∧ c ≤ 122 then some (c - 71)
  else if 48 ≤ c ∧ c ≤ 57 then some (c + 4)
  else if c = 45 then some 62
  else if c = 95 then some 63
  else none

theorem b64DecChar_encChar : ∀ s, s < 64 → b64DecChar (b64EncChar s) = some s := by
  decide

theorem b64EncChar_ne_dot : ∀ s, s < 64 → b64EncChar s ≠ 46 := by
  decide

theorem b64EncChar_lt : ∀ s, s < 64 → b64EncChar s < 256 := by
  decide

/-- Padless base64url encoding of a byte string. -/
def b64Encode : List Nat → List Nat
  | [] => []
  | [b1] => [b64EncChar (b1 / 4), b64EncChar (b1 % 4 * 16)]
  | [b1, b2] =>
    [b64EncChar (b1 / 4), b64EncChar (b1 % 4 * 16 + b2 / 16), b64EncChar (b2 % 16 * 4)]
  | b1 :: b2 :: b3 :: rest =>
    b64EncChar (b1 / 4) :: b64EncChar (b1 % 4 * 16 + b2 / 16) ::
      b64EncChar (b2 % 16 * 4 + b3 / 64) :: b64EncChar (b3 % 64) :: b64Encode rest

/-- Padless base64url decoding; `none` on off-alphabet characters, lengths
`≡ 1 (mod 4)`, or nonzero discarded low bits. -/
def b64Decode : List Nat → Option (List Nat)
  | [] => some []
  | [c1, c2] =>
    match b64DecChar c1, b64DecChar c2 with
    | some s1, some s2 => if s2 % 16 = 0 then some [s1 * 4 + s2 / 16] else none
    | _, _ => none
  | [c1, c2, c3] =>
    match b64DecChar c1, b64DecChar c2, b64DecChar c3 with
    | some s1, some s2, some s3 =>
      if s3 % 4 = 0 then some [s1 * 4 + s2 / 16, s2 % 16 * 16 + s3 / 4] else none
    | _, _, _ => none
  | c1 :: c2 :: c3 :: c4 :: rest =>
    match b64DecChar c1, b64DecChar c2, b64DecChar c3, b64DecChar c4, b64Decode rest with
    | some s1, some s2, some s3, some s4, some bs =>
      some ((s1 * 4 + s2 / 16) :: (s2 % 16 * 16 + s3 / 4) :: (s3 % 4 * 64 + s4) :: bs)
    | _, _, _, _, _ => none
  | _ => none

theorem b64Decode_b64Encode (bs : List Nat) (h : ByteOk bs) :
    b64Decode (b64Encode bs) = some bs := by
  induction bs using b64Encode.induct with
  | case1 => rfl
  | case2 b1 =>
    have h1 : b1 < 256 := h b1 (by simp)
    rw [b64Encode, b64Decode,
      b64DecChar_encChar _ (by omega), b64DecChar_encChar _ (by omega)]
    have e0 : b1 % 4 * 16 % 16 = 0 := by omega
    simp [e0]
    omega
  | case3 b1 b2 =>
    have h1 : b1 < 256 := h b1 (by simp)
    have h2 : b2 < 256 := h b2 (by simp)
    rw [b64Encode, b64Decode, b64DecChar_encChar _ (by omega),
      b64DecChar_encChar _ (by omega), b64DecChar_encChar _ (by omega)]
    have e0 : b2 % 16 * 4 % 4 = 0 := by omega
    simp [e0]
    omega
  | case4 b1 b2 b3 rest ih =>
    have h1 : b1 < 256 := h b1 (by simp)
    have h2 : b2 < 256 := h b2 (by simp)
    have h3 : b3 < 256 := h b3 (by simp)
    have hrest : ByteOk rest := fun b hb => h b (by simp [hb])
    rw [b64Encode, b64Decode, b64DecChar_encChar _ (by omega),
      b64DecChar_encChar _ (by omega), b64DecChar_encChar _ (by omega),
      b64DecChar_encChar _ (by omega), ih hrest]
    simp
    omega

theorem b64Encode_no_dot (bs : List Nat) (h : ByteOk bs) : 46 ∉ b64Encode bs := by
  induction bs using b64Encode.induct with
  | case1 => simp [b64Encode]
  | case2 b1 =>
    have h1 : b1 < 256 := h b1 (by simp)
    simp only [b64Encode, List.mem_cons, List.not_mem_nil, or_false]
    push_neg
    exact ⟨fun he => b64EncChar_ne_dot _ (by omega) he.symm,
      fun he => b64EncChar_ne_dot _ (by omega) he.symm⟩
  | case3 b1 b2 =>
    have h1 : b1 < 256 := h b1 (by simp)
    have h2 : b2 < 256 := h b2 (by simp)
    simp only [b64Encode, List.mem_cons, List.not_mem_nil, or_false]
    push_neg
    exact ⟨fun he => b64EncChar_ne_dot _ (by omega) he.symm,
      fun he => b64EncChar_ne_dot _ (by omega) he.symm,
      fun he => b64EncChar_ne_dot _ (by omega) he.symm⟩
  | case4 b1 b2 b3 rest ih =>
    have h1 : b1 < 256 := h b1 (by simp)
    have h2 : b2 < 256 := h b2 (by simp)
    have h3 : b3 < 256 := h b3 (by simp)
    have hrest : ByteOk rest := fun b hb => h b (by simp [hb])
    simp only [b64Encode, List.mem_cons]
    push_neg
    exact ⟨fun he => b64EncChar_ne_dot _ (by omega) he.symm,
      fun he => b64EncChar_ne_dot _ (by omega) he.symm,
      fun he => b64EncChar_ne_dot _ (by omega) he.symm,
      fun he => b64EncChar_ne_dot _ (by omega) he.symm,
      ih hrest⟩

end CVC

namespace CVC

/-! ## Compact-serialization segment splitting

Modelled from the spec: §4.5/§6 — the compact token is three segments
joined by `.` (byte 46); decode first splits on the separator and fails
with `MalformedToken` unless exactly three segments result. -/

/-- Split a byte string on a delimiter byte; always returns at least one
(possibly empty) segment, one more per delimiter occurrence. -/
def splitOnByte (d : Nat) : List Nat → List (List Nat)
  | [] => [[]]
  | b :: bs =>
    if b = d then [] :: splitOnByte d bs
    else
      match splitOnByte d bs with
      | [] => [[b]]
      | s :: ss => (b :: s) :: ss

theorem splitOnByte_ne_nil (d : Nat) (bs : List Nat) : splitOnByte d bs ≠ [] := by
  induction bs with
  | nil => simp [splitOnByte]
  | cons b bs ih =>
    rw [splitOnByte]
    split
    · simp
    · match hsp : splitOnByte d bs with
      | [] => simp
      | s :: ss => simp

theorem splitOnByte_no_delim (d : Nat) (a : List Nat) (h : d ∉ a) :
    splitOnByte d a = [a] := by
  induction a with
  | nil => rfl
  | cons b bs ih =>
    have hb : b ≠ d := fun he => h (by simp [he])
    have hbs : d ∉ bs := fun he => h (by simp [he])
    rw [splitOnByte, if_neg hb, ih hbs]

theorem splitOnByte_append_delim (d : Nat) (a rest : List Nat) (h : d ∉ a) :
    splitOnByte d (a ++ d :: rest) = a :: splitOnByte d rest := by
  induction a with
  | nil => simp [splitOnByte]
  | cons b bs ih =>
    have hb : b ≠ d := fun he => h (by simp [he])
    have hbs : d ∉ bs := fun he => h (by simp [he])
    rw [List.cons_append, splitOnByte, if_neg hb, ih hbs]

/-- Splitting a three-segment assembly recovers the three segments. -/
theorem splitOnByte_three (d : Nat) (x y z : List Nat)
    (hx : d ∉ x) (hy : d ∉ y) (hz : d ∉ z) :
    splitOnByte d (x ++ d :: (y ++ d :: z)) = [x, y, z] := by
  rw [splitOnByte_append_delim d x _ hx, splitOnByte_append_delim d y _ hy,
    splitOnByte_no_delim d z hz]

end CVC

namespace CVC

/-! ## Claim sets and canonical JSON serialization

Modelled from the spec: §3 — a token claim set is an ordered mapping of
claim names to values, with the registered claims issuer, subject,
audience, expiry, not-before, issued-at and JWT ID plus arbitrary custom
claims; §4.5 — encoding serializes the claims to canonical JSON (stable
order, so re-encoding is byte-identical) and decoding reconstructs the
claim set.  Values are JSON strings (byte strings, with `"` and `\`
escaped) or JSON numbers (the numeric registered claims).  The canonical
order is the registered claims in the order above, then custom claims in
caller order. -/

/-- A JSON claim value: a string or a (natural) number. -/
inductive JVal where
  | str : List Nat → JVal
  | num : Nat → JVal
deriving DecidableEq, Repr

/-- A token claim set: registered claims plus ordered custom claims. -/
structure ClaimSet where
  iss : Option (List Nat)
  sub : Option (List Nat)
  aud : Option (List Nat)
  exp : Option Nat
  nbf : Option Nat
  iat : Option Nat
  jti : Option (List Nat)
  custom : List (List Nat × List Nat)
deriving DecidableEq, Repr

def emptyClaims : ClaimSet := ⟨none, none, none, none, none, none, none, []⟩

def issKey : List Nat := [105, 115, 115]
def subKey : List Nat := [115, 117, 98]
def audKey : List Nat := [97, 117, 100]
def expKey : List Nat := [101, 120, 112]
def nbfKey : List Nat := [110, 98, 102]
def iatKey : List Nat := [105, 97, 116]
def jtiKey : List Nat := [106, 116, 105]

def registeredKeys : List (List Nat) :=
  [issKey, subKey, audKey, expKey, nbfKey, iatKey, jtiKey]

/-- JSON string escaping: `"` (34) and `\` (92) are backslash-escaped. -/
def escapeBytes : List Nat → List Nat
  | [] => []
  | b :: bs => (if b = 34 ∨ b = 92 then [92, b] else [b]) ++ escapeBytes bs

/-- A JSON string literal: quote, escaped bytes, quote. -/
def renderStr (s : List Nat) : List Nat := 34 :: escapeBytes s ++ [34]

/-- Little-endian decimal digits (as ASCII bytes) of `n`, with fuel. -/
def natToDecAux : Nat → Nat → List Nat
  | 0, _ => []
  | fuel + 1, n => if n = 0 then [] else (n % 10 + 48) :: natToDecAux fuel (n / 10)

/-- Decimal ASCII rendering of a natural number, most significant first. -/
def renderNum (n : Nat) : List Nat :=
  if n = 0 then [48] else (natToDecAux n n).reverse

def renderVal : JVal → List Nat
  | .str s => renderStr s
  | .num n => renderNum n

def renderPair (p : List Nat × JVal) : List Nat :=
  renderStr p.1 ++ 58 :: renderVal p.2

def optStrPair (key : List Nat) : Option (List Nat) → List (List Nat × JVal)
  | none => []
  | some s => [(key, JVal.str s)]

def optNumPair (key : List Nat) : Option Nat → List (List Nat × JVal)
  | none => []
  | some n => [(key, JVal.num n)]

/-- The canonical pair list of a claim set: registered claims in fixed
order, then custom claims in caller order. -/
def pairsOf (C : ClaimSet) : List (List Nat × JVal) :=
  optStrPair issKey C.iss ++ optStrPair subKey C.sub ++ optStrPair audKey C.aud ++
    optNumPair expKey C.exp ++ optNumPair nbfKey C.nbf ++ optNumPair iatKey C.iat ++
    optStrPair jtiKey C.jti ++ C.custom.map (fun kv => (kv.1, JVal.str kv.2))

/-- Comma-joined rendered pairs. -/
def joinRendered : List (List Nat × JVal) → List Nat
  | [] => []
  | [p] => renderPair p
  | p :: ps => renderPair p ++ 44 :: joinRendered ps

/-- Canonical JSON serialization of a claim set. -/
def renderClaims (C : ClaimSet) : List Nat :=
  123 :: joinRendered (pairsOf C) ++ [125]

def isDigitB (b : Nat) : Bool := decide (48 ≤ b ∧ b ≤ 57)

def noDigitStart : List Nat → Bool
  | [] => true
  | b :: _ => ! isDigitB b

/-- JSON string body: consume until the closing quote, honouring escapes. -/
def parseStrAux : List Nat → Option (List Nat × List Nat)
  | [] => none
  | b :: bs =>
    if b = 34 then some ([], bs)
    else if b = 92 then
      match bs with
      | [] => none
      | c :: bs2 => (parseStrAux bs2).map fun sr => (c :: sr.1, sr.2)
    else (parseStrAux bs).map fun sr => (b :: sr.1, sr.2)

/-- Longest digit run at the head of the input. -/
def parseDigits : List Nat → List Nat × List Nat
  | [] => ([], [])
  | b :: bs =>
    if isDigitB b then
      let pr := parseDigits bs
      (b :: pr.1, pr.2)
    else ([], b :: bs)

/-- Value of a most-significant-first ASCII digit run. -/
def decValue (ds : List Nat) : Nat := ds.foldl (fun a d => a * 10 + (d - 48)) 0

def parseNum (bs : List Nat) : Option (Nat × List Nat) :=
  match parseDigits bs with
  | ([], _) => none
  | (ds, r) => some (decValue ds, r)

/-- A JSON value: a string if it opens with a quote, else a number. -/
def parseVal : List Nat → Option (JVal × List Nat)
  | [] => none
  | b :: bs =>
    if b = 34 then (parseStrAux bs).map fun sr => (JVal.str sr.1, sr.2)
    else (parseNum (b :: bs)).map fun nr => (JVal.num nr.1, nr.2)

/-- One `"key":value` pair. -/
def parsePair : List Nat → Option ((List Nat × JVal) × List Nat)
  | [] => none
  | b :: bs =>
    if b = 34 then
      match parseStrAux bs with
      | none => none
      | some (k, r1) =>
        match r1 with
        | [] => none
        | b2 :: r2 =>
          if b2 = 58 then (parseVal r2).map fun vr => ((k, vr.1), vr.2)
          else none
    else none

/-- Comma-separated pairs (fuel-bounded recursion on the pair count). -/
def parsePairs : Nat → List Nat → Option (List (List Nat × JVal) × List Nat)
  | 0, _ => none
  | fuel + 1, bs =>
    match parsePair bs with
    | none => none
    | some (p, rest) =>
      match rest with
      | [] => some ([p], [])
      | b :: rest2 =>
        if b = 44 then (parsePairs fuel rest2).map fun pr => (p :: pr.1, pr.2)
        else some ([p], b :: rest2)

/-- Fold one parsed pair into the claim set under reconstruction:
registered names set the matching typed field, all others append to the
custom claims. -/
def insertClaim (C : ClaimSet) (k : List Nat) (v : JVal) : Option ClaimSet :=
  if k = issKey then
    match v with | .str s => some { C with iss := some s } | .num _ => none
  else if k = subKey then
    match v with | .str s => some { C with sub := some s } | .num _ => none
  else if k = audKey then
    match v with | .str s => some { C with aud := some s } | .num _ => none
  else if k = expKey then
    match v with | .num n => some { C with exp := some n } | .str _ => none
  else if k = nbfKey then
    match v with | .num n => some { C with nbf := some n } | .str _ => none
  else if k = iatKey then
    match v with | .num n => some { C with iat := some n } | .str _ => none
  else if k = jtiKey then
    match v with | .str s => some { C with jti := some s } | .num _ => none
  else
    match v with
    | .str s => some { C with custom := C.custom ++ [(k, s)] }
    | .num _ => none

def assembleClaims : List (List Nat × JVal) → ClaimSet → Option ClaimSet
  | [], C => some C
  | (k, v) :: ps, C =>
    match insertClaim C k v with
    | some C2 => assembleClaims ps C2
    | none => none

/-- Parse a canonical claim-set JSON object. -/
def parseClaims (bs : List Nat) : Option ClaimSet :=
  match bs with
  | 123 :: rest =>
    if rest = [125] then some emptyClaims
    else
      match parsePairs rest.length rest with
      | some (ps, r) => if r = [125] then assembleClaims ps emptyClaims else none
      | none => none
  | _ => none

def byteOkB (bs : List Nat) : Bool := bs.all (· < 256)

def optOkB : Option (List Nat) → Bool
  | none => true
  | some s => byteOkB s

/-- Well-formedness of a claim set: all byte strings are bytes, and custom
claim names do not shadow registered names. -/
def wellFormedB (C : ClaimSet) : Bool :=
  optOkB C.iss && optOkB C.sub && optOkB C.aud && optOkB C.jti &&
    C.custom.all fun kv =>
      byteOkB kv.1 && byteOkB kv.2 && !(registeredKeys.contains kv.1)

end CVC

namespace CVC

theorem parseStrAux_escape (s rest : List Nat) :
    parseStrAux (escapeBytes s ++ 34 :: rest) = some (s, rest) := by
  induction s with
  | nil =>
    rw [escapeBytes, List.nil_append, parseStrAux.eq_def]
    simp
  | cons b s ih =>
    by_cases hb : b = 34 ∨ b = 92
    · rw [escapeBytes, if_pos hb]
      show parseStrAux (92 :: (b :: (escapeBytes s ++ 34 :: rest))) = _
      rw [parseStrAux.eq_def]
      simp only []
      rw [if_neg (by norm_num)]
      rw [if_pos trivial, ih]
      rfl
    · push_neg at hb
      rw [escapeBytes, if_neg (by tauto)]
      show parseStrAux (b :: (escapeBytes s ++ 34 :: rest)) = _
      rw [parseStrAux.eq_def]
      simp only []
      rw [if_neg hb.1, if_neg hb.2, ih]
      rfl

theorem natToDecAux_digits (fuel n : Nat) :
    ∀ d ∈ natToDecAux fuel n, 48 ≤ d ∧ d ≤ 57 := by
  induction fuel generalizing n with
  | zero => intro d hd; simp [natToDecAux] at hd
  | succ fuel ih =>
    intro d hd
    rw [natToDecAux] at hd
    by_cases hn : n = 0
    · simp [hn] at hd
    · rw [if_neg hn] at hd
      rcases List.mem_cons.mp hd with rfl | hd2
      · omega
      · exact ih (n / 10) d hd2

theorem renderNum_digits (n : Nat) : ∀ d ∈ renderNum n, 48 ≤ d ∧ d ≤ 57 := by
  intro d hd
  rw [renderNum] at hd
  by_cases hn : n = 0
  · rw [if_pos hn] at hd
    simp at hd
    omega
  · rw [if_neg hn] at hd
    exact natToDecAux_digits n n d (List.mem_reverse.mp hd)

theorem renderNum_ne_nil (n : Nat) : renderNum n ≠ [] := by
  rw [renderNum]
  by_cases hn : n = 0
  · simp [hn]
  · rw [if_neg hn]
    cases n with
    | zero => exact absurd rfl hn
    | succ m =>
      rw [natToDecAux, if_neg hn]
      simp

theorem parseDigits_append (ds rest : List Nat)
    (hds : ∀ d ∈ ds, 48 ≤ d ∧ d ≤ 57) (hrest : noDigitStart rest = true) :
    parseDigits (ds ++ rest) = (ds, rest) := by
  induction ds with
  | nil =>
    cases rest with
    | nil => rfl
    | cons b bs =>
      rw [noDigitStart] at hrest
      simp only [List.nil_append, parseDigits]
      rw [if_neg (by simpa using hrest)]
  | cons d ds ih =>
    have hd := hds d (by simp)
    rw [List.cons_append, parseDigits,
      if_pos (by simp [isDigitB]; omega)]
    simp [ih (fun x hx => hds x (by simp [hx]))]

theorem foldl_natToDecAux (fuel : Nat) :
    ∀ n acc, n ≤ fuel →
      ((natToDecAux fuel n).reverse).foldl (fun a d => a * 10 + (d - 48)) acc =
        acc * 10 ^ (natToDecAux fuel n).length + n := by
  induction fuel with
  | zero =>
    intro n acc h
    interval_cases n
    simp [natToDecAux]
  | succ fuel ih =>
    intro n acc h
    by_cases hn : n = 0
    · simp [natToDecAux, hn]
    · rw [natToDecAux, if_neg hn]
      have hdiv : n / 10 ≤ fuel := by omega
      simp only [List.reverse_cons, List.foldl_append, List.foldl_cons, List.foldl_nil,
        List.length_cons, ih (n / 10) acc hdiv]
      have : n % 10 + 48 - 48 = n % 10 := by omega
      rw [this, pow_succ]
      ring_nf
      omega

theorem decValue_renderNum (n : Nat) : decValue (renderNum n) = n := by
  rw [renderNum]
  by_cases hn : n = 0
  · simp [hn, decValue]
  · rw [if_neg hn, decValue, foldl_natToDecAux n n 0 le_rfl]
    simp

theorem parseNum_renderNum (n : Nat) (rest : List Nat)
    (hrest : noDigitStart rest = true) :
    parseNum (renderNum n ++ rest) = some (n, rest) := by
  have hpd : parseDigits (renderNum n ++ rest) = (renderNum n, rest) :=
    parseDigits_append _ _ (renderNum_digits n) hrest
  rw [parseNum, hpd]
  match hrn : renderNum n with
  | [] => exact absurd hrn (renderNum_ne_nil n)
  | d :: ds =>
    simp only []
    rw [← hrn, decValue_renderNum]

end CVC

namespace CVC

theorem parseVal_renderVal (v : JVal) (rest : List Nat)
    (hrest : noDigitStart rest = true) :
    parseVal (renderVal v ++ rest) = some (v, rest) := by
  cases v with
  | str s =>
    have hshape : renderVal (JVal.str s) ++ rest = 34 :: (escapeBytes s ++ 34 :: rest) := by
      simp [renderVal, renderStr]
    rw [hshape, parseVal.eq_def]
    simp only []
    rw [if_pos (by trivial), parseStrAux_escape]
    rfl
  | num n =>
    obtain ⟨d, ds, hdds⟩ : ∃ d ds, renderNum n = d :: ds := by
      cases hrn : renderNum n with
      | nil => exact absurd hrn (renderNum_ne_nil n)
      | cons d ds => exact ⟨d, ds, rfl⟩
    have hd : 48 ≤ d ∧ d ≤ 57 := renderNum_digits n d (by rw [hdds]; simp)
    rw [renderVal, hdds, List.cons_append, parseVal.eq_def]
    simp only []
    rw [if_neg (by omega), ← List.cons_append, ← hdds,
      parseNum_renderNum n rest hrest]
    rfl

theorem parsePair_renderPair (p : List Nat × JVal) (rest : List Nat)
    (hrest : noDigitStart rest = true) :
    parsePair (renderPair p ++ rest) = some (p, rest) := by
  obtain ⟨k, v⟩ := p
  have hshape : renderPair (k, v) ++ rest =
      34 :: (escapeBytes k ++ 34 :: (58 :: (renderVal v ++ rest))) := by
    simp [renderPair, renderStr]
  rw [hshape, parsePair.eq_def]
  simp only []
  rw [if_pos (by trivial), parseStrAux_escape]
  simp only []
  rw [if_pos (by trivial), parseVal_renderVal v rest hrest]
  rfl

theorem joinRendered_one (p : List Nat × JVal) : joinRendered [p] = renderPair p := rfl

theorem joinRendered_cons2 (p p2 : List Nat × JVal) (ps : List (List Nat × JVal)) :
    joinRendered (p :: p2 :: ps) = renderPair p ++ 44 :: joinRendered (p2 :: ps) := rfl

theorem parsePairs_joinRendered (ps : List (List Nat × JVal)) :
    ∀ (fuel : Nat) (rest : List Nat), ps ≠ [] → ps.length ≤ fuel →
      noDigitStart rest = true → rest.head? ≠ some 44 →
      parsePairs fuel (joinRendered ps ++ rest) = some (ps, rest) := by
  induction ps with
  | nil => intro fuel rest hne; exact absurd rfl hne
  | cons p ps' ih =>
    intro fuel rest _ hfuel hrest hcomma
    match fuel, hfuel with
    | fuel + 1, hf =>
      cases ps' with
      | nil =>
        rw [joinRendered_one, parsePairs,
          parsePair_renderPair p rest hrest]
        simp only []
        cases rest with
        | nil => rfl
        | cons b r2 =>
          have hb : b ≠ 44 := by
            intro he
            exact hcomma (by rw [he]; rfl)
          simp only []
          rw [if_neg hb]
      | cons p2 ps'' =>
        have hshape : joinRendered (p :: p2 :: ps'') ++ rest =
            renderPair p ++ (44 :: (joinRendered (p2 :: ps'') ++ rest)) := by
          rw [joinRendered_cons2]
          simp
        rw [hshape, parsePairs,
          parsePair_renderPair p _ (by rfl)]
        simp only []
        rw [if_pos (by trivial),
          ih fuel rest (by simp) (by simp only [List.length_cons] at hf ⊢; omega) hrest hcomma]
        rfl

theorem renderPair_length_pos (p : List Nat × JVal) : 0 < (renderPair p).length := by
  obtain ⟨k, v⟩ := p
  simp [renderPair, renderStr]

theorem joinRendered_length_ge (ps : List (List Nat × JVal)) :
    ps.length ≤ (joinRendered ps).length := by
  induction ps with
  | nil => simp [joinRendered]
  | cons p ps' ih =>
    cases ps' with
    | nil =>
      rw [joinRendered_one]
      simpa using renderPair_length_pos p
    | cons p2 ps'' =>
      rw [joinRendered_cons2]
      have h1 := renderPair_length_pos p
      simp only [List.length_append, List.length_cons] at ih ⊢
      omega

end CVC

namespace CVC

theorem assemble_iss (v : Option (List Nat)) (L : List (List Nat × JVal))
    (s a : Option (List Nat)) (e n t : Option Nat) (j : Option (List Nat))
    (cu : List (List Nat × List Nat)) :
    assembleClaims (optStrPair issKey v ++ L) ⟨none, s, a, e, n, t, j, cu⟩ =
      assembleClaims L ⟨v, s, a, e, n, t, j, cu⟩ := by
  cases v with
  | none => rfl
  | some x => rfl

theorem assemble_sub (v : Option (List Nat)) (L : List (List Nat × JVal))
    (i a : Option (List Nat)) (e n t : Option Nat) (j : Option (List Nat))
    (cu : List (List Nat × List Nat)) :
    assembleClaims (optStrPair subKey v ++ L) ⟨i, none, a, e, n, t, j, cu⟩ =
      assembleClaims L ⟨i, v, a, e, n, t, j, cu⟩ := by
  cases v with
  | none => rfl
  | some x => rfl

theorem assemble_aud (v : Option (List Nat)) (L : List (List Nat × JVal))
    (i s : Option (List Nat)) (e n t : Option Nat) (j : Option (List Nat))
    (cu : List (List Nat × List Nat)) :
    assembleClaims (optStrPair audKey v ++ L) ⟨i, s, none, e, n, t, j, cu⟩ =
      assembleClaims L ⟨i, s, v, e, n, t, j, cu⟩ := by
  cases v with
  | none => rfl
  | some x => rfl

theorem assemble_exp (v : Option Nat) (L : List (List Nat × JVal))
    (i s a : Option (List Nat)) (n t : Option Nat) (j : Option (List Nat))
    (cu : List (List Nat × List Nat)) :
    assembleClaims (optNumPair expKey v ++ L) ⟨i, s, a, none, n, t, j, cu⟩ =
      assembleClaims L ⟨i, s, a, v, n, t, j, cu⟩ := by
  cases v with
  | none => rfl
  | some x => rfl

theorem assemble_nbf (v : Option Nat) (L : List (List Nat × JVal))
    (i s a : Option (List Nat)) (e t : Option Nat) (j : Option (List Nat))
    (cu : List (List Nat × List Nat)) :
    assembleClaims (optNumPair nbfKey v ++ L) ⟨i, s, a, e, none, t, j, cu⟩ =
      assembleClaims L ⟨i, s, a, e, v, t, j, cu⟩ := by
  cases v with
  | none => rfl
  | some x => rfl

theorem assemble_iat (v : Option Nat) (L : List (List Nat × JVal))
    (i s a : Option (List Nat)) (e n : Option Nat) (j : Option (List Nat))
    (cu : List (List Nat × List Nat)) :
    assembleClaims (optNumPair iatKey v ++ L) ⟨i, s, a, e, n, none, j, cu⟩ =
      assembleClaims L ⟨i, s, a, e, n, v, j, cu⟩ := by
  cases v with
  | none => rfl
  | some x => rfl

theorem assemble_jti (v : Option (List Nat)) (L : List (List Nat × JVal))
    (i s a : Option (List Nat)) (e n t : Option Nat)
    (cu : List (List Nat × List Nat)) :
    assembleClaims (optStrPair jtiKey v ++ L) ⟨i, s, a, e, n, t, none, cu⟩ =
      assembleClaims L ⟨i, s, a, e, n, t, v, cu⟩ := by
  cases v with
  | none => rfl
  | some x => rfl

theorem assemble_custom (cs : List (List Nat × List Nat))
    (i s a : Option (List Nat)) (e n t : Option Nat) (j : Option (List Nat)) :
    ∀ cu, (∀ kv ∈ cs, registeredKeys.contains kv.1 = false) →
      assembleClaims (cs.map fun kv => (kv.1, JVal.str kv.2)) ⟨i, s, a, e, n, t, j, cu⟩ =
        some ⟨i, s, a, e, n, t, j, cu ++ cs⟩ := by
  induction cs with
  | nil => intro cu _; simp [assembleClaims]
  | cons kv cs' ih =>
    intro cu h
    obtain ⟨k, v⟩ := kv
    have h1 := h (k, v) (by simp)
    have hk : k ≠ issKey ∧ k ≠ subKey ∧ k ≠ audKey ∧ k ≠ expKey ∧ k ≠ nbfKey ∧
        k ≠ iatKey ∧ k ≠ jtiKey := by
      simp [registeredKeys] at h1
      tauto
    rw [List.map_cons, assembleClaims, insertClaim,
      if_neg hk.1, if_neg hk.2.1, if_neg hk.2.2.1, if_neg hk.2.2.2.1,
      if_neg hk.2.2.2.2.1, if_neg hk.2.2.2.2.2.1, if_neg hk.2.2.2.2.2.2]
    simp only []
    rw [ih (cu ++ [(k, v)]) (fun kv2 h2 => h kv2 (by simp [h2]))]
    simp

end CVC

namespace CVC

theorem optStrPair_eq_nil (key : List Nat) (o : Option (List Nat)) :
    optStrPair key o = [] ↔ o = none := by
  cases o <;> simp [optStrPair]

theorem optNumPair_eq_nil (key : List Nat) (o : Option Nat) :
    optNumPair key o = [] ↔ o = none := by
  cases o <;> simp [optNumPair]

theorem parseClaims_cons (rest : List Nat) :
    parseClaims (123 :: rest) =
      if rest = [125] then some emptyClaims
      else
        match parsePairs rest.length rest with
        | some (ps, r) => if r = [125] then assembleClaims ps emptyClaims else none
        | none => none := rfl

/-- Parsing the canonical serialization of a well-formed claim set yields
the claim set back. -/
theorem parseClaims_renderClaims (C : ClaimSet) (h : wellFormedB C = true) :
    parseClaims (renderClaims C) = some C := by
  obtain ⟨i, s, a, e, n, t, j, cu⟩ := C
  have hcust : ∀ kv ∈ cu, registeredKeys.contains kv.1 = false := by
    intro kv hkv
    simp only [wellFormedB, Bool.and_eq_true, List.all_eq_true] at h
    have h6 := h.2 kv hkv
    simp only [Bool.and_eq_true, Bool.not_eq_true'] at h6
    exact h6.2
  by_cases hp : pairsOf ⟨i, s, a, e, n, t, j, cu⟩ = []
  · have hcomps : i = none ∧ s = none ∧ a = none ∧ e = none ∧ n = none ∧
        t = none ∧ j = none ∧ cu = [] := by
      simp only [pairsOf, List.append_eq_nil, optStrPair_eq_nil, optNumPair_eq_nil,
        List.map_eq_nil_iff] at hp
      tauto
    obtain ⟨rfl, rfl, rfl, rfl, rfl, rfl, rfl, rfl⟩ := hcomps
    rfl
  · have hjlen := joinRendered_length_ge (pairsOf ⟨i, s, a, e, n, t, j, cu⟩)
    have hlen1 : 1 ≤ (pairsOf ⟨i, s, a, e, n, t, j, cu⟩).length := by
      cases hq : pairsOf ⟨i, s, a, e, n, t, j, cu⟩ with
      | nil => exact absurd hq hp
      | cons _ _ => simp
    rw [renderClaims, List.cons_append, parseClaims_cons]
    have hne125 : joinRendered (pairsOf ⟨i, s, a, e, n, t, j, cu⟩) ++ [125] ≠ [125] := by
      intro he
      have hl : (joinRendered (pairsOf ⟨i, s, a, e, n, t, j, cu⟩) ++ [125]).length = 1 := by
        rw [he]
        rfl
      simp only [List.length_append, List.length_cons, List.length_nil] at hl
      omega
    rw [if_neg hne125]
    rw [parsePairs_joinRendered (pairsOf ⟨i, s, a, e, n, t, j, cu⟩) _ [125] hp
      (by simp only [List.length_append, List.length_cons, List.length_nil]; omega)
      (by rfl) (by simp)]
    simp only []
    rw [if_pos trivial]
    show assembleClaims (pairsOf ⟨i, s, a, e, n, t, j, cu⟩)
      ⟨none, none, none, none, none, none, none, []⟩ = _
    simp only [pairsOf, List.append_assoc]
    rw [assemble_iss, assemble_sub, assemble_aud, assemble_exp, assemble_nbf,
      assemble_iat, assemble_jti, assemble_custom cu i s a e n t j [] hcust,
      List.nil_append]

end CVC

namespace CVC

/-- Value-level byte validity: string payloads are byte strings. -/
def ValOk : JVal → Prop
  | .str s => ByteOk s
  | .num _ => True

theorem escapeBytes_mem (s : List Nat) (b : Nat) (hb : b ∈ escapeBytes s) :
    b = 92 ∨ b ∈ s := by
  induction s with
  | nil => simp [escapeBytes] at hb
  | cons x xs ih =>
    rw [escapeBytes] at hb
    rcases List.mem_append.mp hb with h1 | h2
    · by_cases hx : x = 34 ∨ x = 92
      · rw [if_pos hx] at h1
        simp at h1
        rcases h1 with rfl | rfl
        · left; rfl
        · right; simp
      · rw [if_neg hx] at h1
        simp at h1
        right
        simp [h1]
    · rcases ih h2 with h3 | h3
      · left; exact h3
      · right; simp [h3]

theorem renderStr_byteOk (s : List Nat) (h : ByteOk s) : ByteOk (renderStr s) := by
  intro b hb
  rw [renderStr] at hb
  rcases List.mem_append.mp hb with h1 | h2
  · rcases List.mem_cons.mp h1 with rfl | h3
    · norm_num
    · rcases escapeBytes_mem s b h3 with rfl | h4
      · norm_num
      · exact h b h4
  · simp at h2
    omega

theorem renderNum_byteOk (n : Nat) : ByteOk (renderNum n) := by
  intro b hb
  have := renderNum_digits n b hb
  omega

theorem renderVal_byteOk (v : JVal) (hv : ValOk v) : ByteOk (renderVal v) := by
  cases v with
  | str s => exact renderStr_byteOk s hv
  | num n => exact renderNum_byteOk n

theorem renderPair_byteOk (p : List Nat × JVal) (hk : ByteOk p.1) (hv : ValOk p.2) :
    ByteOk (renderPair p) := by
  obtain ⟨k, v⟩ := p
  intro b hb
  rw [renderPair] at hb
  rcases List.mem_append.mp hb with h1 | h2
  · exact renderStr_byteOk k hk b h1
  · rcases List.mem_cons.mp h2 with rfl | h3
    · norm_num
    · exact renderVal_byteOk v hv b h3

theorem joinRendered_byteOk (ps : List (List Nat × JVal))
    (h : ∀ p ∈ ps, ByteOk (renderPair p)) : ByteOk (joinRendered ps) := by
  induction ps with
  | nil => intro b hb; simp [joinRendered] at hb
  | cons p ps' ih =>
    cases ps' with
    | nil =>
      rw [joinRendered_one]
      exact h p (by simp)
    | cons p2 ps'' =>
      rw [joinRendered_cons2]
      intro b hb
      rcases List.mem_append.mp hb with h1 | h2
      · exact h p (by simp) b h1
      · rcases List.mem_cons.mp h2 with rfl | h3
        · norm_num
        · exact ih (fun x hx => h x (by simp at hx ⊢; tauto)) b h3

theorem mem_optStrPair (p : List Nat × JVal) (key : List Nat) (o : Option (List Nat))
    (hp : p ∈ optStrPair key o) : ∃ v, o = some v ∧ p = (key, JVal.str v) := by
  cases o with
  | none => simp [optStrPair] at hp
  | some v =>
    simp [optStrPair] at hp
    exact ⟨v, rfl, hp⟩

theorem mem_optNumPair (p : List Nat × JVal) (key : List Nat) (o : Option Nat)
    (hp : p ∈ optNumPair key o) : ∃ v, o = some v ∧ p = (key, JVal.num v) := by
  cases o with
  | none => simp [optNumPair] at hp
  | some v =>
    simp [optNumPair] at hp
    exact ⟨v, rfl, hp⟩

theorem byteOkB_iff (bs : List Nat) : byteOkB bs = true ↔ ByteOk bs := by
  simp [byteOkB, ByteOk, List.all_eq_true]

theorem pairsOf_ok (C : ClaimSet) (h : wellFormedB C = true) :
    ∀ p ∈ pairsOf C, ByteOk p.1 ∧ ValOk p.2 := by
  obtain ⟨i, s, a, e, n, t, j, cu⟩ := C
  simp only [wellFormedB, Bool.and_eq_true, List.all_eq_true] at h
  obtain ⟨⟨⟨⟨hi, hs⟩, ha⟩, hj⟩, hcu⟩ := h
  intro p hp
  simp only [pairsOf, List.append_assoc, List.mem_append] at hp
  rcases hp with h1 | h1 | h1 | h1 | h1 | h1 | h1 | h1
  · obtain ⟨v, hv, rfl⟩ := mem_optStrPair p issKey i h1
    subst hv
    exact ⟨(by decide : ByteOk issKey), (byteOkB_iff v).mp hi⟩
  · obtain ⟨v, hv, rfl⟩ := mem_optStrPair p subKey s h1
    subst hv
    exact ⟨(by decide : ByteOk subKey), (byteOkB_iff v).mp hs⟩
  · obtain ⟨v, hv, rfl⟩ := mem_optStrPair p audKey a h1
    subst hv
    exact ⟨(by decide : ByteOk audKey), (byteOkB_iff v).mp ha⟩
  · obtain ⟨v, hv, rfl⟩ := mem_optNumPair p expKey e h1
    exact ⟨(by decide : ByteOk expKey), trivial⟩
  · obtain ⟨v, hv, rfl⟩ := mem_optNumPair p nbfKey n h1
    exact ⟨(by decide : ByteOk nbfKey), trivial⟩
  · obtain ⟨v, hv, rfl⟩ := mem_optNumPair p iatKey t h1
    exact ⟨(by decide : ByteOk iatKey), trivial⟩
  · obtain ⟨v, hv, rfl⟩ := mem_optStrPair p jtiKey j h1
    subst hv
    exact ⟨(by decide : ByteOk jtiKey), (byteOkB_iff v).mp hj⟩
  · simp only [List.mem_map] at h1
    obtain ⟨kv, hkv, rfl⟩ := h1
    have h2 := hcu kv hkv
    simp only [Bool.and_eq_true] at h2
    exact ⟨(byteOkB_iff kv.1).mp h2.1.1, (byteOkB_iff kv.2).mp h2.1.2⟩

theorem renderClaims_byteOk (C : ClaimSet) (h : wellFormedB C = true) :
    ByteOk (renderClaims C) := by
  intro b hb
  rw [renderClaims] at hb
  rcases List.mem_append.mp hb with h1 | h2
  · rcases List.mem_cons.mp h1 with rfl | h3
    · norm_num
    · exact joinRendered_byteOk (pairsOf C)
        (fun p hp => renderPair_byteOk p (pairsOf_ok C h p hp).1 (pairsOf_ok C h p hp).2)
        b h3
  · simp at h2
    omega

end CVC

namespace CVC

/-! ## JWT algorithms, keys, header

Modelled from the spec: §4.5/§6 — the header declares the signing
algorithm; supported algorithms cover an HMAC (symmetric) family and the
two asymmetric curve families (Ed25519-style EdDSA and P-256-style
ECDSA); the caller-facing decode configuration carries an
`allowed_algorithms` set, expiry / not-before toggles, optional expected
issuer and audience, and a clock-skew tolerance. -/

/-- Supported token algorithms: one HMAC family member and the two
asymmetric families. -/
inductive JwtAlg where
  | HS256 : JwtAlg
  | ES256 : JwtAlg
  | EdDSA : JwtAlg
deriving DecidableEq, Repr

/-- ASCII bytes of the algorithm name. -/
def algName : JwtAlg → List Nat
  | .HS256 => [72, 83, 50, 53, 54]
  | .ES256 => [69, 83, 50, 53, 54]
  | .EdDSA => [69, 100, 68, 83, 65]

/-- Header JSON: `{"alg":"<name>","typ":"JWT"}`. -/
def renderHeader (a : JwtAlg) : List Nat :=
  [123, 34, 97, 108, 103, 34, 58, 34] ++ algName a ++
    [34, 44, 34, 116, 121, 112, 34, 58, 34, 74, 87, 84, 34, 125]

/-- Extract the declared algorithm from decoded header bytes. -/
def parseHeader (bs : List Nat) : Option JwtAlg :=
  if bs = renderHeader .HS256 then some .HS256
  else if bs = renderHeader .ES256 then some .ES256
  else if bs = renderHeader .EdDSA then some .EdDSA
  else none

theorem parseHeader_renderHeader (a : JwtAlg) :
    parseHeader (renderHeader a) = some a := by
  cases a <;> decide

theorem renderHeader_byteOk (a : JwtAlg) : ByteOk (renderHeader a) := by
  cases a <;> decide

/-- A verification/signing key: an HMAC secret or an asymmetric key pair
(private scalar, public point). -/
inductive JwtKey where
  | hmac : List Nat → JwtKey
  | asym : Nat → Nat → JwtKey
deriving DecidableEq, Repr

/-- Token-level signing: HMAC tag for the symmetric family, curve signature
for the asymmetric families; an alg/key mismatch yields an (unverifiable)
empty signature. -/
def jwtSign (q : Nat) (a : JwtAlg) (key : JwtKey) (input : List Nat) : List Nat :=
  match a, key with
  | .HS256, .hmac secret => natToBytes 32 (hashBytes (secret ++ input))
  | .ES256, .asym priv _ => sign q priv input
  | .EdDSA, .asym priv _ => sign q priv input
  | _, _ => []

/-- Token-level signature check, mirroring `jwtSign`. -/
def jwtVerifySig (q : Nat) (a : JwtAlg) (key : JwtKey) (input sig : List Nat) : Bool :=
  match a, key with
  | .HS256, .hmac secret => sig == natToBytes 32 (hashBytes (secret ++ input))
  | .ES256, .asym _ pub => verify q pub input sig == .Success
  | .EdDSA, .asym _ pub => verify q pub input sig == .Success
  | _, _ => false

/-- The key fits the algorithm: HMAC takes a secret; the asymmetric
families take a valid key pair (public point derived from the private
scalar). -/
def keyMatchesB (q : Nat) : JwtAlg → JwtKey → Bool
  | .HS256, .hmac _ => true
  | .ES256, .asym priv pub => pub == pubkey q priv
  | .EdDSA, .asym priv pub => pub == pubkey q priv
  | _, _ => false

theorem jwtVerifySig_jwtSign (q : Nat) (a : JwtAlg) (key : JwtKey) (input : List Nat)
    (hq : 0 < q) (hq2 : q ≤ 2 ^ 256) (hkey : keyMatchesB q a key = true) :
    jwtVerifySig q a key input (jwtSign q a key input) = true := by
  cases a <;> cases key <;> simp_all [keyMatchesB, jwtSign, jwtVerifySig] <;>
    exact verify_sign_ok q _ input hq hq2

theorem jwtSign_byteOk (q : Nat) (a : JwtAlg) (key : JwtKey) (input : List Nat) :
    ByteOk (jwtSign q a key input) := by
  cases a <;> cases key <;>
    simp only [jwtSign] <;>
    first
      | exact natToBytes_byteOk 32 _
      | (intro b hb; rcases List.mem_append.mp hb with h | h <;>
          exact natToBytes_byteOk 32 _ b h)
      | (intro b hb; simp at hb)

end CVC

namespace CVC

/-- Decode-time error taxonomy (spec §7, token-relevant part). -/
inductive DecodeError where
  | MalformedToken : DecodeError
  | InvalidEncoding : DecodeError
  | UnsupportedAlgorithm : DecodeError
  | InvalidSignature : DecodeError
  | TokenExpired : DecodeError
  | TokenNotYetValid : DecodeError
  | IssuerMismatch : DecodeError
  | AudienceMismatch : DecodeError
deriving DecidableEq, Repr

/-- Caller-supplied decode configuration (spec §6): allowed algorithms,
claim-validation toggles, expected issuer/audience, clock-skew tolerance,
and the current time. -/
structure DecodeConfig where
  allowedAlgs : List JwtAlg
  verifyExp : Bool
  verifyNbf : Bool
  verifyIss : Option (List Nat)
  verifyAud : Option (List Nat)
  clockSkew : Nat
  now : Nat
deriving DecidableEq, Repr

/-- The expiry claim is present, checking is enabled, and the token is past
its expiry beyond the skew tolerance. -/
def expiredB (cfg : DecodeConfig) (C : ClaimSet) : Bool :=
  match C.exp with
  | some e => cfg.verifyExp && decide (e + cfg.clockSkew < cfg.now)
  | none => false

/-- The not-before claim is present, checking is enabled, and the token is
not yet valid beyond the skew tolerance. -/
def notYetValidB (cfg : DecodeConfig) (C : ClaimSet) : Bool :=
  match C.nbf with
  | some nb => cfg.verifyNbf && decide (cfg.now + cfg.clockSkew < nb)
  | none => false

/-- An expected issuer is configured and the token's differs. -/
def issMismatchB (cfg : DecodeConfig) (C : ClaimSet) : Bool :=
  match cfg.verifyIss with
  | some x => !(C.iss == some x)
  | none => false

/-- An expected audience is configured and the token's differs. -/
def audMismatchB (cfg : DecodeConfig) (C : ClaimSet) : Bool :=
  match cfg.verifyAud with
  | some x => !(C.aud == some x)
  | none => false

/-- Registered-claim validation (spec §4.5 `ClaimsValidated`): expiry,
not-before, issuer, audience, each independently configurable. -/
def validateClaims (cfg : DecodeConfig) (C : ClaimSet) : Except DecodeError ClaimSet :=
  if expiredB cfg C then .error .TokenExpired
  else if notYetValidB cfg C then .error .TokenNotYetValid
  else if issMismatchB cfg C then .error .IssuerMismatch
  else if audMismatchB cfg C then .error .AudienceMismatch
  else .ok C

/-- The signing input: `base64url(header) "." base64url(payload)`. -/
def signingInput (a : JwtAlg) (C : ClaimSet) : List Nat :=
  b64Encode (renderHeader a) ++ 46 :: b64Encode (renderClaims C)

/-- Token issuance (spec §4.5): claims → canonical JSON → base64url →
sign → assemble three dot-separated segments. -/
def jwtEncode (q : Nat) (a : JwtAlg) (key : JwtKey) (C : ClaimSet) : List Nat :=
  signingInput a C ++ 46 :: b64Encode (jwtSign q a key (signingInput a C))

/-- Decoding after a successful three-way split (spec §4.5 states
`HeaderDecoded → PayloadDecoded → SignatureVerified → ClaimsValidated`). -/
def decodeSegments (q : Nat) (cfg : DecodeConfig) (key : JwtKey)
    (h p s : List Nat) : Except DecodeError ClaimSet :=
  match b64Decode h with
  | none => .error .InvalidEncoding
  | some hb =>
    match parseHeader hb with
    | none => .error .InvalidEncoding
    | some alg =>
      if alg ∈ cfg.allowedAlgs then
        match b64Decode p with
        | none => .error .InvalidEncoding
        | some pb =>
          match parseClaims pb with
          | none => .error .InvalidEncoding
          | some C =>
            match b64Decode s with
            | none => .error .InvalidEncoding
            | some sig =>
              if jwtVerifySig q alg key (h ++ 46 :: p) sig then validateClaims cfg C
              else .error .InvalidSignature
      else .error .UnsupportedAlgorithm

/-- Token decoding (spec §4.5): split on `.`; fail with `MalformedToken`
unless exactly three segments; then header, payload, signature, claims. -/
def jwtDecode (q : Nat) (cfg : DecodeConfig) (key : JwtKey) (token : List Nat) :
    Except DecodeError ClaimSet :=
  match splitOnByte 46 token with
  | [h, p, s] => decodeSegments q cfg key h p s
  | _ => .error .MalformedToken

end CVC

namespace CVC

theorem validateClaims_ne_malformedToken (cfg : DecodeConfig) (C : ClaimSet) :
    validateClaims cfg C ≠ .error .MalformedToken := by
  unfold validateClaims
  split
  · simp
  · split
    · simp
    · split
      · simp
      · split
        · simp
        · simp

theorem decodeSegments_ne_malformedToken (q : Nat) (cfg : DecodeConfig) (key : JwtKey)
    (h p s : List Nat) : decodeSegments q cfg key h p s ≠ .error .MalformedToken := by
  unfold decodeSegments
  split
  · simp
  · split
    · simp
    · split
      · split
        · simp
        · split
          · simp
          · split
            · simp
            · split
              · exact validateClaims_ne_malformedToken cfg _
              · simp
      · simp

/-- Decoding an issued token reduces to claim validation whenever the key
matches the algorithm and the algorithm is allowed. -/
theorem jwtDecode_jwtEncode (q : Nat) (cfg : DecodeConfig) (a : JwtAlg) (key : JwtKey)
    (C : ClaimSet) (hq : 0 < q) (hq2 : q ≤ 2 ^ 256) (hwf : wellFormedB C = true)
    (hkey : keyMatchesB q a key = true) (halg : a ∈ cfg.allowedAlgs) :
    jwtDecode q cfg key (jwtEncode q a key C) = validateClaims cfg C := by
  have hH := renderHeader_byteOk a
  have hP := renderClaims_byteOk C hwf
  have hS := jwtSign_byteOk q a key (signingInput a C)
  have hsplit : splitOnByte 46 (jwtEncode q a key C) =
      [b64Encode (renderHeader a), b64Encode (renderClaims C),
        b64Encode (jwtSign q a key (signingInput a C))] := by
    rw [jwtEncode, signingInput, List.append_assoc, List.cons_append]
    exact splitOnByte_three 46 _ _ _
      (b64Encode_no_dot _ hH) (b64Encode_no_dot _ hP) (b64Encode_no_dot _ hS)
  unfold jwtDecode
  rw [hsplit]
  show decodeSegments q cfg key _ _ _ = _
  unfold decodeSegments
  rw [b64Decode_b64Encode _ hH]
  simp only []
  rw [parseHeader_renderHeader]
  simp only []
  rw [if_pos halg, b64Decode_b64Encode _ hP]
  simp only []
  rw [parseClaims_renderClaims C hwf]
  simp only []
  rw [b64Decode_b64Encode _ hS]
  simp only []
  rw [show b64Encode (renderHeader a) ++ 46 :: b64Encode (renderClaims C) =
    signingInput a C from rfl]
  rw [jwtVerifySig_jwtSign q a key _ hq hq2 hkey]
  simp

end CVC

namespace CVC

/-- C2: decoding a token produced by encoding a (well-formed) claim set
under a key, using the same key and the identical canonicalization, yields
a claim set equal to the original whenever the algorithm is allowed and
the claims pass validation; the signature always validates on the
round trip. -/
theorem C2_token_roundtrip (q : Nat) (cfg : DecodeConfig) (a : JwtAlg) (key : JwtKey)
    (C : ClaimSet) (hq : 0 < q) (hq2 : q ≤ 2 ^ 256) (hwf : wellFormedB C = true)
    (hkey : keyMatchesB q a key = true) (halg : a ∈ cfg.allowedAlgs)
    (hval : validateClaims cfg C = .ok C) :
    jwtDecode q cfg key (jwtEncode q a key C) = .ok C := by
  rw [jwtDecode_jwtEncode q cfg a key C hq hq2 hwf hkey halg]
  exact hval

/-- C2 witness: a concrete claim set (issuer "a", expiry 5, one custom
claim) HMAC-encoded and decoded back bit-for-bit. -/
theorem C2_token_roundtrip_witness :
    jwtDecode 7919 ⟨[JwtAlg.HS256], false, false, none, none, 0, 0⟩
        (JwtKey.hmac [1, 2, 3])
        (jwtEncode 7919 .HS256 (JwtKey.hmac [1, 2, 3])
          ⟨some [97], none, none, some 5, none, none, none, [([120], [121])]⟩) =
      .ok ⟨some [97], none, none, some 5, none, none, none, [([120], [121])]⟩ :=
  C2_token_roundtrip 7919 ⟨[JwtAlg.HS256], false, false, none, none, 0, 0⟩ .HS256
    (JwtKey.hmac [1, 2, 3])
    ⟨some [97], none, none, some 5, none, none, none, [([120], [121])]⟩
    (by norm_num) (by norm_num) (by decide) rfl (by simp) rfl

/-- C3: when the algorithm declared in a token's header is not in the
decoder's allowed-algorithms set, decoding rejects the token with
`UnsupportedAlgorithm` (regardless of key, payload or signature). -/
theorem C3_unsupported_algorithm (q : Nat) (cfg : DecodeConfig) (key : JwtKey)
    (t h p s hb : List Nat) (a : JwtAlg)
    (hsplit : splitOnByte 46 t = [h, p, s])
    (hdec : b64Decode h = some hb)
    (hhdr : parseHeader hb = some a)
    (hnotin : a ∉ cfg.allowedAlgs) :
    jwtDecode q cfg key t = .error .UnsupportedAlgorithm := by
  unfold jwtDecode
  rw [hsplit]
  show decodeSegments q cfg key h p s = _
  unfold decodeSegments
  rw [hdec]
  simp only []
  rw [hhdr]
  simp only []
  rw [if_neg hnotin]

set_option maxRecDepth 40000 in
/-- C3 witness: a token issued under the asymmetric EdDSA algorithm is
rejected by a decoder allowing only HMAC (HS256), and a token issued under
HS256 is rejected by a decoder allowing only EdDSA. -/
theorem C3_unsupported_algorithm_witness :
    jwtDecode 7919 ⟨[JwtAlg.HS256], false, false, none, none, 0, 0⟩
        (JwtKey.hmac [1])
        (jwtEncode 7919 .EdDSA (JwtKey.asym 3 (pubkey 7919 3)) emptyClaims) =
      .error .UnsupportedAlgorithm ∧
    jwtDecode 7919 ⟨[JwtAlg.EdDSA], false, false, none, none, 0, 0⟩
        (JwtKey.asym 3 (pubkey 7919 3))
        (jwtEncode 7919 .HS256 (JwtKey.hmac [1]) emptyClaims) =
      .error .UnsupportedAlgorithm :=
  ⟨C3_unsupported_algorithm 7919 ⟨[JwtAlg.HS256], false, false, none, none, 0, 0⟩
      (JwtKey.hmac [1]) _
      (b64Encode (renderHeader .EdDSA)) (b64Encode (renderClaims emptyClaims))
      (b64Encode (jwtSign 7919 .EdDSA (JwtKey.asym 3 (pubkey 7919 3))
        (signingInput .EdDSA emptyClaims)))
      (renderHeader .EdDSA) .EdDSA (by decide) (by decide) (by decide) (by decide),
    C3_unsupported_algorithm 7919 ⟨[JwtAlg.EdDSA], false, false, none, none, 0, 0⟩
      (JwtKey.asym 3 (pubkey 7919 3)) _
      (b64Encode (renderHeader .HS256)) (b64Encode (renderClaims emptyClaims))
      (b64Encode (jwtSign 7919 .HS256 (JwtKey.hmac [1])
        (signingInput .HS256 emptyClaims)))
      (renderHeader .HS256) .HS256 (by decide) (by decide) (by decide) (by decide)⟩

/-- C4: decoding fails with `MalformedToken` exactly when the input does
not consist of three dot-separated segments; with exactly three segments
the state machine advances past the split (whatever else happens, the
outcome is never `MalformedToken`). -/
theorem C4_malformed_token_iff (q : Nat) (cfg : DecodeConfig) (key : JwtKey)
    (t : List Nat) :
    jwtDecode q cfg key t = .error .MalformedToken ↔
      (splitOnByte 46 t).length ≠ 3 := by
  unfold jwtDecode
  match hsp : splitOnByte 46 t with
  | [] => simp
  | [x] => simp
  | [x, y] => simp
  | [x, y, z] =>
    have hd := decodeSegments_ne_malformedToken q cfg key x y z
    simp [hd]
  | x :: y :: z :: w :: r => simp [List.length_cons]

/-- C8: a token whose expiry is earlier than the configured current time
(beyond skew) is rejected with `TokenExpired` when expiry checking is
enabled, and the same token is accepted when expiry checking is disabled
(and the other claim checks pass). -/
theorem C8_expiry_enforcement (q : Nat) (cfg : DecodeConfig) (a : JwtAlg) (key : JwtKey)
    (C : ClaimSet) (e : Nat)
    (hq : 0 < q) (hq2 : q ≤ 2 ^ 256) (hwf : wellFormedB C = true)
    (hkey : keyMatchesB q a key = true) (halg : a ∈ cfg.allowedAlgs)
    (hexp : C.exp = some e) (hlt : e + cfg.clockSkew < cfg.now)
    (hnbf : notYetValidB cfg C = false) (hiss : issMismatchB cfg C = false)
    (haud : audMismatchB cfg C = false) :
    (cfg.verifyExp = true →
      jwtDecode q cfg key (jwtEncode q a key C) = .error .TokenExpired) ∧
    (cfg.verifyExp = false →
      jwtDecode q cfg key (jwtEncode q a key C) = .ok C) := by
  have hbase := jwtDecode_jwtEncode q cfg a key C hq hq2 hwf hkey halg
  constructor
  · intro hon
    rw [hbase]
    unfold validateClaims
    have hex : expiredB cfg C = true := by
      unfold expiredB
      rw [hexp]
      simp [hon, hlt]
    rw [hex]
    rfl
  · intro hoff
    rw [hbase]
    unfold validateClaims
    have hex : expiredB cfg C = false := by
      unfold expiredB
      rw [hexp]
      simp [hoff]
    rw [hex, hnbf, hiss, haud]
    rfl

/-- C8 witness: a token with expiry 5 decoded at time 100 — rejected
`TokenExpired` with expiry checking on, accepted with it off. -/
theorem C8_expiry_enforcement_witness :
    jwtDecode 7919 ⟨[JwtAlg.HS256], true, false, none, none, 0, 100⟩
        (JwtKey.hmac [9])
        (jwtEncode 7919 .HS256 (JwtKey.hmac [9])
          ⟨none, none, none, some 5, none, none, none, []⟩) =
      .error .TokenExpired ∧
    jwtDecode 7919 ⟨[JwtAlg.HS256], false, false, none, none, 0, 100⟩
        (JwtKey.hmac [9])
        (jwtEncode 7919 .HS256 (JwtKey.hmac [9])
          ⟨none, none, none, some 5, none, none, none, []⟩) =
      .ok ⟨none, none, none, some 5, none, none, none, []⟩ :=
  ⟨(C8_expiry_enforcement 7919 ⟨[JwtAlg.HS256], true, false, none, none, 0, 100⟩
      .HS256 (JwtKey.hmac [9]) ⟨none, none, none, some 5, none, none, none, []⟩ 5
      (by norm_num) (by norm_num) (by decide) rfl (by simp) rfl (by norm_num)
      rfl rfl rfl).1 rfl,
    (C8_expiry_enforcement 7919 ⟨[JwtAlg.HS256], false, false, none, none, 0, 100⟩
      .HS256 (JwtKey.hmac [9]) ⟨none, none, none, some 5, none, none, none, []⟩ 5
      (by norm_num) (by norm_num) (by decide) rfl (by simp) rfl (by norm_num)
      rfl rfl rfl).2 rfl⟩

end CVC
